import Mathlib

/-!
Shallow embedding of the kdownload segmented download engine
(src/download/partmap.rs, src/download/manager.rs, src/scheduler.rs,
src/download/mirror.rs) and proofs about the partition algorithm, the
part-map persistence log, the segment-worker retry loop, the scheduler
admission invariant, the mirror rotation and the finalization sequence.

Modelling conventions:
* Rust `u64`/`usize` values are modelled as `Nat`; `saturating_sub` is `Nat`
  subtraction.  Wrap-around is modelled only where a property depends on it:
  the mirror cursor is a wrapping `usize` counter (`% 2 ^ 64`), matching
  `AtomicUsize::fetch_add` with relaxed ordering.
* `f64` throughput samples and wall-clock instants are modelled as `ℚ`; the
  scheduler property proved here does not depend on rounding.
* The `while start < file_size` loop of `PartMap::new` is written with
  explicit fuel `file_size`: every iteration advances `start` by at least
  one byte (the constructor forces `chunk_size ≥ 1`), so `file_size`
  iterations always suffice.
* bincode (v1, default options) fixed-int encoding is modelled byte for
  byte: a `u64` is eight little-endian base-256 digits, `usize` is encoded
  as `u64`, a `Vec` is a `u64` length followed by the elements, struct
  fields are encoded in declaration order, and deserialization tolerates
  trailing bytes (the Rust code skips over a decoded record using
  `bincode::serialized_size`; the model returns the remaining bytes
  directly, which is the same information).
-/

namespace KDownload

/-- `2 ^ 64`, the modulus of `u64` / `usize` values. -/
def U64_MOD : Nat := 2 ^ 64

/-! ## src/download/partmap.rs : data model and partition algorithm -/

/-- `PartSegment` (partmap.rs).  The Rust field `end` is spelled `endPos`
because `end` is a Lean keyword. -/
structure PartSegment where
  id : Nat
  start : Nat
  endPos : Nat
  downloaded : Nat
deriving DecidableEq

/-- `PartSegment::len`: `self.end.saturating_sub(self.start) + 1`. -/
def PartSegment.len (s : PartSegment) : Nat :=
  s.endPos - s.start + 1

/-- `PartSegment::remaining`: `self.len().saturating_sub(self.downloaded)`. -/
def PartSegment.remaining (s : PartSegment) : Nat :=
  s.len - s.downloaded

/-- `PartMap` (partmap.rs). -/
structure PartMap where
  file_size : Nat
  chunk_size : Nat
  segments : List PartSegment
deriving DecidableEq

/-- The `while start < file_size` loop of `PartMap::new`, building segments
`⟨id, start, min (start+chunk_size-1) (file_size-1), 0⟩`.  The first `Nat`
argument after `chunk_size` is fuel; every call site passes `file_size`,
which suffices because each iteration advances `start` by at least one
(every call site also guarantees `1 ≤ chunk_size`). -/
def partitionFrom (file_size chunk_size : Nat) : Nat → Nat → Nat → List PartSegment
  | 0, _, _ => []
  | fuel + 1, start, id =>
    if start < file_size then
      ⟨id, start, min (start + chunk_size - 1) (file_size - 1), 0⟩ ::
        partitionFrom file_size chunk_size fuel
          (min (start + chunk_size - 1) (file_size - 1) + 1) (id + 1)
    else []

/-- `PartMap::new` (partmap.rs lines 35–71): force `chunk_size ≥ 1`, special
case `file_size == 0` as the single segment `[0,0]`, otherwise run the
partition loop from `start = 0`, `id = 0`. -/
def PartMap.new (file_size chunk_size : Nat) : PartMap :=
  let chunk_size := max chunk_size 1
  if file_size = 0 then
    ⟨file_size, chunk_size, [⟨0, 0, 0, 0⟩]⟩
  else
    ⟨file_size, chunk_size, partitionFrom file_size chunk_size file_size 0 0⟩

/-! ### Partition lemmas -/

lemma partitionFrom_zero (fs cs start id : Nat) :
    partitionFrom fs cs 0 start id = [] := rfl

lemma partitionFrom_stop (fs cs fuel start id : Nat) (hs : ¬ start < fs) :
    partitionFrom fs cs fuel start id = [] := by
  cases fuel with
  | zero => rfl
  | succ n => simp [partitionFrom, hs]

lemma partitionFrom_cons (fs cs fuel start id : Nat) (hs : start < fs) :
    partitionFrom fs cs (fuel + 1) start id =
      ⟨id, start, min (start + cs - 1) (fs - 1), 0⟩ ::
        partitionFrom fs cs fuel (min (start + cs - 1) (fs - 1) + 1) (id + 1) := by
  simp [partitionFrom, hs]

lemma partitionFrom_ne_nil (fs cs : Nat) :
    ∀ fuel start id, start < fs → fs ≤ start + fuel →
      partitionFrom fs cs fuel start id ≠ [] := by
  intro fuel start id hs hfuel
  cases fuel with
  | zero => omega
  | succ n => rw [partitionFrom_cons fs cs n start id hs]; simp


lemma partitionFrom_get?_id (fs cs : Nat) :
    ∀ fuel start id k s, (partitionFrom fs cs fuel start id).get? k = some s →
      s.id = id + k := by
  intro fuel
  induction fuel with
  | zero => intro start id k s h; simp [partitionFrom_zero] at h
  | succ n ih =>
    intro start id k s h
    by_cases hs : start < fs
    · rw [partitionFrom_cons fs cs n start id hs] at h
      cases k with
      | zero =>
        simp only [List.get?_cons_zero, Option.some.injEq] at h
        subst h; rfl
      | succ k =>
        simp only [List.get?_cons_succ] at h
        have := ih _ _ k s h
        omega
    · rw [partitionFrom_stop fs cs (n + 1) start id hs] at h
      simp at h

lemma partitionFrom_downloaded (fs cs : Nat) :
    ∀ fuel start id, ∀ s ∈ partitionFrom fs cs fuel start id, s.downloaded = 0 := by
  intro fuel
  induction fuel with
  | zero => intro start id s hs; simp [partitionFrom_zero] at hs
  | succ n ih =>
    intro start id s hs
    by_cases h : start < fs
    · rw [partitionFrom_cons fs cs n start id h] at hs
      rcases List.mem_cons.mp hs with h1 | h2
      · subst h1; rfl
      · exact ih _ _ s h2
    · rw [partitionFrom_stop fs cs (n + 1) start id h] at hs
      simp at hs

lemma partitionFrom_bounds (fs cs : Nat) (hcs : 1 ≤ cs) :
    ∀ fuel start id, ∀ s ∈ partitionFrom fs cs fuel start id,
      s.start ≤ s.endPos ∧ s.endPos ≤ fs - 1 := by
  intro fuel
  induction fuel with
  | zero => intro start id s hs; simp [partitionFrom_zero] at hs
  | succ n ih =>
    intro start id s hs
    by_cases h : start < fs
    · rw [partitionFrom_cons fs cs n start id h] at hs
      rcases List.mem_cons.mp hs with h1 | h2
      · subst h1
        dsimp only
        refine ⟨le_min ?_ ?_, min_le_right _ _⟩ <;> omega
      · exact ih _ _ s h2
    · rw [partitionFrom_stop fs cs (n + 1) start id h] at hs
      simp at hs

/-- The produced list is a chain: its first element starts at the requested
offset and each successor starts one past its predecessor's `end`. -/
def Chained : Nat → List PartSegment → Prop
  | _, [] => True
  | s, seg :: rest => seg.start = s ∧ Chained (seg.endPos + 1) rest

lemma partitionFrom_chained (fs cs : Nat) :
    ∀ fuel start id, Chained start (partitionFrom fs cs fuel start id) := by
  intro fuel
  induction fuel with
  | zero => intro start id; simp [partitionFrom_zero, Chained]
  | succ n ih =>
    intro start id
    by_cases h : start < fs
    · rw [partitionFrom_cons fs cs n start id h]
      exact ⟨rfl, ih _ _⟩
    · rw [partitionFrom_stop fs cs (n + 1) start id h]
      simp [Chained]

lemma Chained.get?_zero {l : List PartSegment} {s0 : Nat} {s : PartSegment}
    (hc : Chained s0 l) (h : l.get? 0 = some s) : s.start = s0 := by
  cases l with
  | nil => simp at h
  | cons a t =>
    simp only [List.get?_cons_zero, Option.some.injEq] at h
    subst h; exact hc.1

lemma Chained.get?_succ {l : List PartSegment} :
    ∀ {s0 k} {s s' : PartSegment}, Chained s0 l → l.get? k = some s →
      l.get? (k + 1) = some s' → s'.start = s.endPos + 1 := by
  induction l with
  | nil => intro s0 k s s' _ h _; simp at h
  | cons a t ih =>
    intro s0 k s s' hc h h'
    cases k with
    | zero =>
      simp only [List.get?_cons_zero, Option.some.injEq] at h
      simp only [List.get?_cons_succ] at h'
      subst h
      cases t with
      | nil => simp at h'
      | cons b t' =>
        simp only [List.get?_cons_zero, Option.some.injEq] at h'
        subst h'; exact hc.2.1
    | succ k =>
      simp only [List.get?_cons_succ] at h h'
      exact ih hc.2 h h'

lemma partitionFrom_getLast? (fs cs : Nat) (hcs : 1 ≤ cs) :
    ∀ fuel start id, start < fs → fs ≤ start + fuel →
      ∀ s, (partitionFrom fs cs fuel start id).getLast? = some s →
        s.endPos = fs - 1 := by
  intro fuel
  induction fuel with
  | zero => intro start id hs hfuel; omega
  | succ n ih =>
    intro start id hs hfuel s hlast
    rw [partitionFrom_cons fs cs n start id hs] at hlast
    by_cases hnext : min (start + cs - 1) (fs - 1) + 1 < fs
    · have hstart : start ≤ min (start + cs - 1) (fs - 1) := le_min (by omega) (by omega)
      have hrest : partitionFrom fs cs n (min (start + cs - 1) (fs - 1) + 1) (id + 1) ≠ [] :=
        partitionFrom_ne_nil fs cs n _ _ hnext (by omega)
      obtain ⟨r, t, hrt⟩ := List.exists_cons_of_ne_nil hrest
      rw [hrt, List.getLast?_cons_cons, ← hrt] at hlast
      exact ih _ _ hnext (by omega) s hlast
    · have hrest : partitionFrom fs cs n (min (start + cs - 1) (fs - 1) + 1) (id + 1) = [] :=
        partitionFrom_stop fs cs n _ _ hnext
      rw [hrest] at hlast
      simp only [List.getLast?_singleton, Option.some.injEq] at hlast
      subst hlast
      have h2 : min (start + cs - 1) (fs - 1) ≤ fs - 1 := min_le_right _ _
      simp only
      omega

lemma partitionFrom_nonlast_len (fs cs : Nat) (hcs : 1 ≤ cs) :
    ∀ fuel start id k s s', (partitionFrom fs cs fuel start id).get? k = some s →
      (partitionFrom fs cs fuel start id).get? (k + 1) = some s' →
      s.len = cs := by
  intro fuel
  induction fuel with
  | zero => intro start id k s s' h _; simp [partitionFrom_zero] at h
  | succ n ih =>
    intro start id k s s' h h'
    by_cases hs : start < fs
    · rw [partitionFrom_cons fs cs n start id hs] at h h'
      cases k with
      | zero =>
        simp only [List.get?_cons_zero, Option.some.injEq] at h
        simp only [List.get?_cons_succ] at h'
        have hrest : partitionFrom fs cs n (min (start + cs - 1) (fs - 1) + 1) (id + 1) ≠ [] := by
          intro hnil
          rw [hnil] at h'
          simp at h'
        have hnext : min (start + cs - 1) (fs - 1) + 1 < fs := by
          by_contra hcon
          exact hrest (partitionFrom_stop fs cs n _ _ hcon)
        have hmin : min (start + cs - 1) (fs - 1) = start + cs - 1 := by
          have := min_le_right (start + cs - 1) (fs - 1)
          omega
        subst h
        simp only [PartSegment.len, hmin]
        omega
      | succ k =>
        simp only [List.get?_cons_succ] at h h'
        exact ih _ _ k s s' h h'
    · rw [partitionFrom_stop fs cs (n + 1) start id hs] at h
      simp at h

/-- C6: for every `file_size > 0` and `chunk_size > 0`, the segments
produced by the partition algorithm carry dense ids `0..N` in start order,
each with `downloaded = 0` and `start ≤ end ≤ file_size - 1`; the list is
nonempty, its first segment starts at byte `0`, each later segment starts
one past its predecessor's `end` (so, sorted by start, the segments are
contiguous, non-overlapping, and cover exactly `[0, file_size)`), and the
last segment's `end` is `file_size - 1`. -/
theorem partition_completeness (fs cs : Nat) (hfs : 0 < fs) (hcs : 0 < cs) :
    (PartMap.new fs cs).segments ≠ [] ∧
    (∀ k s, (PartMap.new fs cs).segments.get? k = some s →
      s.id = k ∧ s.downloaded = 0 ∧ s.start ≤ s.endPos ∧ s.endPos ≤ fs - 1) ∧
    (∀ s, (PartMap.new fs cs).segments.get? 0 = some s → s.start = 0) ∧
    (∀ k s s', (PartMap.new fs cs).segments.get? k = some s →
      (PartMap.new fs cs).segments.get? (k + 1) = some s' →
      s'.start = s.endPos + 1) ∧
    (∀ s, (PartMap.new fs cs).segments.getLast? = some s → s.endPos = fs - 1) := by
  have hfs' : ¬ fs = 0 := by omega
  have hmax : max cs 1 = cs := by omega
  have hsegs : (PartMap.new fs cs).segments = partitionFrom fs cs fs 0 0 := by
    simp [PartMap.new, hfs', hmax]
  rw [hsegs]
  have hcs1 : 1 ≤ cs := hcs
  refine ⟨partitionFrom_ne_nil fs cs fs 0 0 hfs (by omega), ?_, ?_, ?_, ?_⟩
  · intro k s h
    have hmem : s ∈ partitionFrom fs cs fs 0 0 := List.get?_mem h
    refine ⟨?_, partitionFrom_downloaded fs cs fs 0 0 s hmem, ?_, ?_⟩
    · have := partitionFrom_get?_id fs cs fs 0 0 k s h
      omega
    · exact (partitionFrom_bounds fs cs hcs1 fs 0 0 s hmem).1
    · exact (partitionFrom_bounds fs cs hcs1 fs 0 0 s hmem).2
  · intro s h
    exact (partitionFrom_chained fs cs fs 0 0).get?_zero h
  · intro k s s' h h'
    exact (partitionFrom_chained fs cs fs 0 0).get?_succ h h'
  · intro s h
    exact partitionFrom_getLast? fs cs hcs1 fs 0 0 hfs (by omega) s h

/-- Witness for C6 at `file_size = 10`, `chunk_size = 3`. -/
theorem partition_completeness_witness :
    ((0 : Nat) < 10 ∧ (0 : Nat) < 3) ∧
    ((PartMap.new 10 3).segments ≠ [] ∧
    (∀ k s, (PartMap.new 10 3).segments.get? k = some s →
      s.id = k ∧ s.downloaded = 0 ∧ s.start ≤ s.endPos ∧ s.endPos ≤ 10 - 1) ∧
    (∀ s, (PartMap.new 10 3).segments.get? 0 = some s → s.start = 0) ∧
    (∀ k s s', (PartMap.new 10 3).segments.get? k = some s →
      (PartMap.new 10 3).segments.get? (k + 1) = some s' →
      s'.start = s.endPos + 1) ∧
    (∀ s, (PartMap.new 10 3).segments.getLast? = some s → s.endPos = 10 - 1)) :=
  ⟨by decide, partition_completeness 10 3 (by decide) (by decide)⟩

/-! ## src/download/manager.rs : constants and chunk-size computation -/

/-- `MIN_CHUNK_SIZE = 4 << 20` (manager.rs line 34). -/
def MIN_CHUNK_SIZE : Nat := 4 * 1024 * 1024

/-- `MAX_RETRIES` (manager.rs line 35). -/
def MAX_RETRIES : Nat := 5

/-- `WRITE_BUFFER_SIZE = 512 << 10` (manager.rs line 36). -/
def WRITE_BUFFER_SIZE : Nat := 512 * 1024

/-- `compute_chunk_size` (manager.rs lines 497–504):
`min (max ⌈total / segments⌉ MIN_CHUNK_SIZE) total` for `total > 0`. -/
def compute_chunk_size (total initial_segments : Nat) : Nat :=
  if total = 0 then 1
  else
    min (max ((total + max initial_segments 1 - 1) / max initial_segments 1)
      MIN_CHUNK_SIZE) total

/-- C5 counterexample: at `file_size = 2`, requested `chunk_size = 1`, the
partition algorithm (`PartMap::new`) does not use `max(chunk_size, 4 MiB)`
as the effective chunk: it produces two segments, and the first (non-last)
segment has length `1 < 4 MiB`.  (An effective chunk of
`max(1, MIN_CHUNK_SIZE)` would have produced the single segment `[0,1]`.) -/
theorem partition_min_chunk_cx :
    (PartMap.new 2 1).segments = [⟨0, 0, 0, 0⟩, ⟨1, 1, 1, 0⟩] ∧
    ¬ (∀ s ∈ (PartMap.new 2 1).segments.dropLast, MIN_CHUNK_SIZE ≤ s.len) := by
  decide

/-- C5 amended: `PartMap::new` itself only forces `chunk_size ≥ 1`; the
4 MiB floor is applied upstream by `compute_chunk_size`, which the manager
uses to derive the chunk from `initial_segments`.  For the chunk size the
manager actually passes, whenever `file_size ≥ 4 MiB` the computed chunk is
at least `MIN_CHUNK_SIZE` and every produced segment except possibly the
last has length at least 4 MiB (when `file_size < 4 MiB` the chunk is
clamped to `file_size` and the partition is a single segment). -/
theorem min_chunk_via_compute_chunk_size (total segs : Nat)
    (h : MIN_CHUNK_SIZE ≤ total) :
    MIN_CHUNK_SIZE ≤ compute_chunk_size total segs ∧
    (∀ k s s',
      (PartMap.new total (compute_chunk_size total segs)).segments.get? k = some s →
      (PartMap.new total (compute_chunk_size total segs)).segments.get? (k + 1) = some s' →
      MIN_CHUNK_SIZE ≤ s.len) := by
  have htotal : ¬ total = 0 := by
    have : 0 < MIN_CHUNK_SIZE := by decide
    omega
  have hchunk : MIN_CHUNK_SIZE ≤ compute_chunk_size total segs := by
    rw [compute_chunk_size, if_neg htotal]
    exact le_min (le_max_right _ _) h
  refine ⟨hchunk, ?_⟩
  intro k s s' hs hs'
  set c := compute_chunk_size total segs with hc
  have hc1 : 1 ≤ c := by
    have : (0 : Nat) < MIN_CHUNK_SIZE := by decide
    omega
  have hmax : max c 1 = c := by omega
  have hsegs : (PartMap.new total c).segments = partitionFrom total c total 0 0 := by
    simp [PartMap.new, htotal, hmax]
  rw [hsegs] at hs hs'
  have := partitionFrom_nonlast_len total c hc1 total 0 0 k s s' hs hs'
  omega

/-- Witness for C5 amended at `total = 5 MiB`, `initial_segments = 2`. -/
theorem min_chunk_via_compute_chunk_size_witness :
    MIN_CHUNK_SIZE ≤ 5 * 1024 * 1024 ∧
    (MIN_CHUNK_SIZE ≤ compute_chunk_size (5 * 1024 * 1024) 2 ∧
    (∀ k s s',
      (PartMap.new (5 * 1024 * 1024)
        (compute_chunk_size (5 * 1024 * 1024) 2)).segments.get? k = some s →
      (PartMap.new (5 * 1024 * 1024)
        (compute_chunk_size (5 * 1024 * 1024) 2)).segments.get? (k + 1) = some s' →
      MIN_CHUNK_SIZE ≤ s.len)) :=
  ⟨by decide, min_chunk_via_compute_chunk_size (5 * 1024 * 1024) 2 (by decide)⟩

/-! ## src/download/partmap.rs : bincode persistence log -/

/-- A `u64` as eight little-endian base-256 digits (bincode v1 fixed-int). -/
def u64Bytes (n : Nat) : List Nat :=
  [n % 256, n / 256 % 256, n / 256 ^ 2 % 256, n / 256 ^ 3 % 256,
   n / 256 ^ 4 % 256, n / 256 ^ 5 % 256, n / 256 ^ 6 % 256, n / 256 ^ 7 % 256]

/-- Read a little-endian `u64` from the front of a byte stream. -/
def readU64 : List Nat → Option (Nat × List Nat)
  | b0 :: b1 :: b2 :: b3 :: b4 :: b5 :: b6 :: b7 :: rest =>
    some (b0 + 256 * b1 + 256 ^ 2 * b2 + 256 ^ 3 * b3 + 256 ^ 4 * b4 +
      256 ^ 5 * b5 + 256 ^ 6 * b6 + 256 ^ 7 * b7, rest)
  | _ => none

lemma readU64_u64Bytes (n : Nat) (hn : n < U64_MOD) (rest : List Nat) :
    readU64 (u64Bytes n ++ rest) = some (n, rest) := by
  simp only [u64Bytes, List.cons_append, List.nil_append, readU64,
    Option.some.injEq, Prod.mk.injEq, and_true]
  have hn' : n < 256 ^ 8 := by
    simpa [U64_MOD] using hn
  omega

lemma readU64_length {data rest : List Nat} {n : Nat}
    (h : readU64 data = some (n, rest)) : rest.length + 8 = data.length := by
  match data, h with
  | b0 :: b1 :: b2 :: b3 :: b4 :: b5 :: b6 :: b7 :: r, h =>
    simp only [readU64, Option.some.injEq, Prod.mk.injEq] at h
    rw [← h.2]
    simp

/-- `SegmentUpdate` (partmap.rs lines 74–78). -/
structure SegmentUpdate where
  id : Nat
  downloaded : Nat
deriving DecidableEq

/-- bincode encoding of a `PartSegment` (fields in declaration order). -/
def encodeSegment (s : PartSegment) : List Nat :=
  u64Bytes s.id ++ u64Bytes s.start ++ u64Bytes s.endPos ++ u64Bytes s.downloaded

/-- bincode encoding of a `PartMap`: `file_size`, `chunk_size`, then the
segment `Vec` as a `u64` length followed by the encoded segments. -/
def encodePartMap (m : PartMap) : List Nat :=
  u64Bytes m.file_size ++ u64Bytes m.chunk_size ++ u64Bytes m.segments.length ++
    (m.segments.map encodeSegment).flatten

/-- bincode encoding of a `SegmentUpdate`. -/
def encodeUpdate (u : SegmentUpdate) : List Nat :=
  u64Bytes u.id ++ u64Bytes u.downloaded

def readSegment (data : List Nat) : Option (PartSegment × List Nat) :=
  match readU64 data with
  | none => none
  | some (i, d1) =>
    match readU64 d1 with
    | none => none
    | some (st, d2) =>
      match readU64 d2 with
      | none => none
      | some (e, d3) =>
        match readU64 d3 with
        | none => none
        | some (dl, d4) => some (⟨i, st, e, dl⟩, d4)

def readSegments : Nat → List Nat → Option (List PartSegment × List Nat)
  | 0, data => some ([], data)
  | n + 1, data =>
    match readSegment data with
    | none => none
    | some (s, rest) =>
      match readSegments n rest with
      | none => none
      | some (l, rest') => some (s :: l, rest')

/-- `bincode::deserialize::<PartMap>` with trailing bytes tolerated,
returning the remaining bytes (the Rust code reconstructs the same offset
with `bincode::serialized_size`). -/
def decodePartMap (data : List Nat) : Option (PartMap × List Nat) :=
  match readU64 data with
  | none => none
  | some (fs, d1) =>
    match readU64 d1 with
    | none => none
    | some (cs, d2) =>
      match readU64 d2 with
      | none => none
      | some (n, d3) =>
        match readSegments n d3 with
        | none => none
        | some (segs, rest) => some (⟨fs, cs, segs⟩, rest)

/-- `bincode::deserialize::<SegmentUpdate>` with trailing bytes tolerated. -/
def decodeUpdate (data : List Nat) : Option (SegmentUpdate × List Nat) :=
  match readU64 data with
  | none => none
  | some (i, d1) =>
    match readU64 d1 with
    | none => none
    | some (dl, rest) => some (⟨i, dl⟩, rest)

/-- Replaying one update record (partmap.rs lines 115–118):
`map.segments.get_mut(update.id)` indexes the segment `Vec` by position. -/
def applyUpdate (m : PartMap) (u : SegmentUpdate) : PartMap :=
  match m.segments.get? u.id with
  | some seg => { m with segments := m.segments.set u.id { seg with downloaded := u.downloaded } }
  | none => m

/-- The update-replay loop of `load_or_create` (partmap.rs lines 113–123):
decode `SegmentUpdate`s in order, stopping at the first record that fails
to decode.  Each step consumes 16 bytes, so `data.length` is enough fuel. -/
def replayUpdatesGo : Nat → PartMap → List Nat → PartMap
  | 0, m, _ => m
  | fuel + 1, m, data =>
    match decodeUpdate data with
    | some (u, rest) => replayUpdatesGo fuel (applyUpdate m u) rest
    | none => m

def replayUpdates (m : PartMap) (data : List Nat) : PartMap :=
  replayUpdatesGo data.length m data

/-- The pure core of `PartMapHandle::load_or_create` (partmap.rs lines
91–160).  `existing = some data` models "the path exists with contents
`data`"; the result is the in-memory map paired with the file contents
after the call (reload keeps the file and re-opens it in append mode; every
other path truncates and writes a fresh baseline). -/
def load_or_create (existing : Option (List Nat)) (file_size chunk_size : Nat) :
    PartMap × List Nat :=
  match existing with
  | some data =>
    if data.isEmpty then
      let m := PartMap.new file_size chunk_size
      (m, encodePartMap m)
    else
      match decodePartMap data with
      | some (m, rest) =>
        if m.file_size = file_size then (replayUpdates m rest, data)
        else
          let m' := PartMap.new file_size chunk_size
          (m', encodePartMap m')
      | none =>
        let m' := PartMap.new file_size chunk_size
        (m', encodePartMap m')
  | none =>
    let m := PartMap.new file_size chunk_size
    (m, encodePartMap m)

/-- Replace the `downloaded` of the first segment whose `id` field matches
(`iter_mut().find(...)` in `record_progress`). -/
def setFirstDownloaded : List PartSegment → Nat → Nat → List PartSegment
  | [], _, _ => []
  | s :: rest, i, d =>
    if s.id = i then { s with downloaded := d } :: rest
    else s :: setFirstDownloaded rest i d

/-- `PartMapHandle::record_progress` (partmap.rs lines 166–192): find the
segment by its `id` field, clamp `downloaded` to the segment length, update
it in memory and append the encoded update record to the file.  `none`
models the `segment not found` error.  The `_force_flush` argument is
ignored, as in the source. -/
def record_progress (m : PartMap) (fileData : List Nat) (i downloaded : Nat)
    (_force_flush : Bool) : Option (PartMap × List Nat) :=
  match m.segments.find? (fun seg => seg.id == i) with
  | none => none
  | some segment =>
    some ({ m with segments := setFirstDownloaded m.segments i (min downloaded segment.len) },
          fileData ++ encodeUpdate ⟨i, min downloaded segment.len⟩)

/-- `PartMapHandle::finalize` composed with the tail of
`download_segments` (manager.rs lines 339–352): the manager first calls
`partmap.finalize()` (which removes the part-map file), then
`file.sync_all()`, then — only on success — removes the part-map path again
if it still exists.  Input: whether the part-map file exists and whether
each fallible step fails.  Output: the ordered trace of events, whether the
part-map file exists afterwards, and whether the run succeeded. -/
inductive FinalEvent where
  | partMapRemoved
  | fsyncOk
  | fsyncFailed
deriving DecidableEq

def finalizeTail (pmExists finalizeFails syncFails : Bool) :
    List FinalEvent × Bool × Bool :=
  if pmExists ∧ finalizeFails then
    -- `partmap.finalize()` returned an error: surface it, file kept.
    ([], true, false)
  else
    -- `fs::remove_file` succeeded (or the file was already absent).
    let ev1 : List FinalEvent := if pmExists then [.partMapRemoved] else []
    if syncFails then (ev1 ++ [.fsyncFailed], false, false)
    else
      -- lines 349–351 re-check the path; it was already removed above.
      (ev1 ++ [.fsyncOk], false, true)

/-! ### Persistence-log lemmas -/

/-- All fields of a segment fit in `u64` (always true of the Rust values). -/
abbrev SegBounded (s : PartSegment) : Prop :=
  s.id < U64_MOD ∧ s.start < U64_MOD ∧ s.endPos < U64_MOD ∧ s.downloaded < U64_MOD

/-- All fields of a part map fit in `u64`. -/
abbrev MapBounded (m : PartMap) : Prop :=
  m.file_size < U64_MOD ∧ m.chunk_size < U64_MOD ∧ m.segments.length < U64_MOD ∧
    ∀ s ∈ m.segments, SegBounded s

lemma readSegment_encode (s : PartSegment) (hs : SegBounded s) (rest : List Nat) :
    readSegment (encodeSegment s ++ rest) = some (s, rest) := by
  simp [readSegment, encodeSegment, List.append_assoc,
    readU64_u64Bytes _ hs.1, readU64_u64Bytes _ hs.2.1,
    readU64_u64Bytes _ hs.2.2.1, readU64_u64Bytes _ hs.2.2.2]

lemma readSegments_encode (l : List PartSegment) (h : ∀ s ∈ l, SegBounded s)
    (rest : List Nat) :
    readSegments l.length ((l.map encodeSegment).flatten ++ rest) = some (l, rest) := by
  induction l with
  | nil => rfl
  | cons s t ih =>
    have hs : SegBounded s := h s (List.mem_cons_self s t)
    have ht : ∀ x ∈ t, SegBounded x := fun x hx => h x (List.mem_cons_of_mem s hx)
    simp only [List.length_cons, List.map_cons, List.flatten_cons, List.append_assoc,
      readSegments, readSegment_encode s hs, ih ht]

lemma decodePartMap_encode (m : PartMap) (hm : MapBounded m) (rest : List Nat) :
    decodePartMap (encodePartMap m ++ rest) = some (m, rest) := by
  simp [decodePartMap, encodePartMap, List.append_assoc,
    readU64_u64Bytes _ hm.1, readU64_u64Bytes _ hm.2.1,
    readU64_u64Bytes _ hm.2.2.1, readSegments_encode m.segments hm.2.2.2]

lemma decodeUpdate_encode (u : SegmentUpdate)
    (hu : u.id < U64_MOD ∧ u.downloaded < U64_MOD) (rest : List Nat) :
    decodeUpdate (encodeUpdate u ++ rest) = some (u, rest) := by
  simp [decodeUpdate, encodeUpdate, List.append_assoc,
    readU64_u64Bytes _ hu.1, readU64_u64Bytes _ hu.2]

lemma decodeUpdate_length {data rest : List Nat} {u : SegmentUpdate}
    (h : decodeUpdate data = some (u, rest)) : rest.length + 16 = data.length := by
  cases h1 : readU64 data with
  | none => simp [decodeUpdate, h1] at h
  | some p1 =>
    obtain ⟨n1, d1⟩ := p1
    cases h2 : readU64 d1 with
    | none => simp [decodeUpdate, h1, h2] at h
    | some p2 =>
      obtain ⟨n2, d2⟩ := p2
      simp only [decodeUpdate, h1, h2, Option.some.injEq, Prod.mk.injEq] at h
      have l1 := readU64_length h1
      have l2 := readU64_length h2
      obtain ⟨-, hrest⟩ := h
      subst hrest
      simp only at l1 l2
      omega

lemma replayUpdates_none {data : List Nat} (m : PartMap)
    (h : decodeUpdate data = none) : replayUpdates m data = m := by
  unfold replayUpdates
  cases data with
  | nil => rfl
  | cons a t => simp [replayUpdatesGo, h]

lemma replayUpdatesGo_congr :
    ∀ fuel (m : PartMap) (data : List Nat), data.length ≤ fuel →
      replayUpdatesGo fuel m data = replayUpdatesGo data.length m data := by
  intro fuel
  induction fuel using Nat.strong_induction_on with
  | _ fuel ih =>
    intro m data hle
    cases fuel with
    | zero =>
      have : data = [] := List.eq_nil_of_length_eq_zero (by omega)
      subst this; rfl
    | succ n =>
      cases hd : decodeUpdate data with
      | none =>
        cases data with
        | nil => rfl
        | cons a t => simp [replayUpdatesGo, hd]
      | some p =>
        obtain ⟨u, rest⟩ := p
        have hlen := decodeUpdate_length hd
        have hdata : data ≠ [] := by
          intro hnil; subst hnil; simp at hlen
        obtain ⟨a, t, hat⟩ := List.exists_cons_of_ne_nil hdata
        subst hat
        have e1 : replayUpdatesGo (n + 1) m (a :: t) =
            replayUpdatesGo n (applyUpdate m u) rest := by
          simp [replayUpdatesGo, hd]
        have e2 : replayUpdatesGo (a :: t).length m (a :: t) =
            replayUpdatesGo t.length (applyUpdate m u) rest := by
          simp [replayUpdatesGo, hd]
        have hlen' : rest.length + 16 = t.length + 1 := by simpa using hlen
        have hle' : t.length + 1 ≤ n + 1 := by simpa using hle
        rw [e1, e2]
        rw [ih n (by omega) (applyUpdate m u) rest (by omega)]
        rw [ih t.length (by omega) (applyUpdate m u) rest (by omega)]

lemma replayUpdates_append_encode (u : SegmentUpdate)
    (hu : u.id < U64_MOD ∧ u.downloaded < U64_MOD) (m : PartMap) (rest : List Nat) :
    replayUpdates m (encodeUpdate u ++ rest) = replayUpdates (applyUpdate m u) rest := by
  unfold replayUpdates
  have hlen : (encodeUpdate u ++ rest).length = rest.length + 15 + 1 := by
    simp [encodeUpdate, u64Bytes]
  rw [hlen]
  have : replayUpdatesGo (rest.length + 15 + 1) m (encodeUpdate u ++ rest) =
      replayUpdatesGo (rest.length + 15) (applyUpdate m u) rest := by
    simp [replayUpdatesGo, decodeUpdate_encode u hu rest]
  rw [this]
  exact replayUpdatesGo_congr (rest.length + 15) (applyUpdate m u) rest (by omega)

lemma replayUpdates_encoded (updates : List SegmentUpdate) :
    ∀ (m : PartMap) (junk : List Nat),
      (∀ u ∈ updates, u.id < U64_MOD ∧ u.downloaded < U64_MOD) →
      decodeUpdate junk = none →
      replayUpdates m ((updates.map encodeUpdate).flatten ++ junk) =
        updates.foldl applyUpdate m := by
  induction updates with
  | nil =>
    intro m junk _ hjunk
    simpa using replayUpdates_none m hjunk
  | cons u rest ih =>
    intro m junk hu hjunk
    have h1 : u.id < U64_MOD ∧ u.downloaded < U64_MOD := hu u (List.mem_cons_self u rest)
    have h2 : ∀ x ∈ rest, x.id < U64_MOD ∧ x.downloaded < U64_MOD :=
      fun x hx => hu x (List.mem_cons_of_mem u hx)
    simp only [List.map_cons, List.flatten_cons, List.append_assoc, List.foldl_cons]
    rw [replayUpdates_append_encode u h1 m _, ih (applyUpdate m u) junk h2 hjunk]

/-- The last `downloaded` value written for index `j` by a sequence of
update records (later records override earlier ones). -/
def lastWritten (updates : List SegmentUpdate) (j : Nat) : Option Nat :=
  updates.foldl (fun acc u => if u.id = j then some u.downloaded else acc) none

lemma lastWritten_foldl (updates : List SegmentUpdate) (j : Nat) (acc : Option Nat) :
    updates.foldl (fun acc u => if u.id = j then some u.downloaded else acc) acc =
      (lastWritten updates j).or acc := by
  induction updates generalizing acc with
  | nil => rfl
  | cons u rest ih =>
    have hl : lastWritten (u :: rest) j =
        (lastWritten rest j).or (if u.id = j then some u.downloaded else none) := by
      simp only [lastWritten, List.foldl_cons]
      exact ih _
    rw [List.foldl_cons, ih _, hl]
    cases h : lastWritten rest j with
    | some v => rfl
    | none =>
      by_cases hj : u.id = j
      · simp only [if_pos hj]; rfl
      · simp only [if_neg hj]; rfl

lemma foldl_applyUpdate_get? (updates : List SegmentUpdate) :
    ∀ (m : PartMap) (j : Nat),
      (updates.foldl applyUpdate m).segments.get? j =
        (m.segments.get? j).map
          (fun s => { s with downloaded := (lastWritten updates j).getD s.downloaded }) := by
  induction updates with
  | nil =>
    intro m j
    simp only [List.foldl_nil]
    cases hm : m.segments.get? j <;> rfl
  | cons u rest ih =>
    intro m j
    rw [List.foldl_cons, ih]
    have hl : lastWritten (u :: rest) j =
        (lastWritten rest j).or (if u.id = j then some u.downloaded else none) := by
      simp only [lastWritten, List.foldl_cons]
      exact lastWritten_foldl rest j _
    rw [hl]
    unfold applyUpdate
    cases hm : m.segments.get? u.id with
    | none =>
      simp only [hm]
      by_cases hj : u.id = j
      · subst hj
        rw [hm]
        rfl
      · rw [if_neg hj, Option.or_none]
    | some seg =>
      simp only [hm]
      have hlen : u.id < m.segments.length := by
        obtain ⟨hh, -⟩ := List.get?_eq_some.mp hm
        exact hh
      rw [List.get?_set_of_lt' _ _ hlen]
      by_cases hj : u.id = j
      · subst hj
        rw [if_pos rfl, if_pos rfl, hm]
        cases ho : lastWritten rest u.id with
        | none => rfl
        | some v => rfl
      · rw [if_neg hj, if_neg hj, Option.or_none]

lemma encodePartMap_not_isEmpty (m : PartMap) : (encodePartMap m).isEmpty = false := by
  simp [encodePartMap, u64Bytes]

/-- C7: part-map persistence round-trips.  (a) Writing a baseline and
reloading it with the same `file_size` yields an equal part map and leaves
the file unchanged.  (b) Reloading after appended update records yields the
replayed map `updates.foldl applyUpdate m`, in which each position's
`downloaded` is the last value written for that index (last-writer-wins in
file order).  (c) A trailing record that fails to decode (in particular a
truncated one, shorter than 16 bytes) is ignored: the state from the
baseline and all earlier updates is preserved. -/
theorem partmap_roundtrip (m : PartMap) (cs : Nat) (updates : List SegmentUpdate)
    (junk : List Nat) (hm : MapBounded m)
    (hu : ∀ u ∈ updates, u.id < U64_MOD ∧ u.downloaded < U64_MOD)
    (hjunk : decodeUpdate junk = none) :
    load_or_create (some (encodePartMap m)) m.file_size cs = (m, encodePartMap m) ∧
    (load_or_create (some (encodePartMap m ++ (updates.map encodeUpdate).flatten))
        m.file_size cs).1 = updates.foldl applyUpdate m ∧
    (∀ j, (updates.foldl applyUpdate m).segments.get? j =
      (m.segments.get? j).map
        (fun s => { s with downloaded := (lastWritten updates j).getD s.downloaded })) ∧
    (load_or_create
        (some ((encodePartMap m ++ (updates.map encodeUpdate).flatten) ++ junk))
        m.file_size cs).1 = updates.foldl applyUpdate m := by
  have hnil : decodeUpdate ([] : List Nat) = none := rfl
  refine ⟨?_, ?_, fun j => foldl_applyUpdate_get? updates m j, ?_⟩
  · have hdec := decodePartMap_encode m hm []
    rw [List.append_nil] at hdec
    simp only [load_or_create, encodePartMap_not_isEmpty m, Bool.false_eq_true,
      if_false, hdec, if_true]
    rw [replayUpdates_none m hnil]
  · have hdec := decodePartMap_encode m hm ((updates.map encodeUpdate).flatten)
    have hne : (encodePartMap m ++ (updates.map encodeUpdate).flatten).isEmpty = false := by
      cases h : encodePartMap m with
      | nil => exact absurd (h ▸ encodePartMap_not_isEmpty m) (by simp)
      | cons a t => simp [h]
    simp only [load_or_create, hne, Bool.false_eq_true, if_false, hdec, if_true]
    have hrep := replayUpdates_encoded updates m [] hu hnil
    rw [List.append_nil] at hrep
    exact hrep
  · have hdec := decodePartMap_encode m hm ((updates.map encodeUpdate).flatten ++ junk)
    have hne : (encodePartMap m ++ ((updates.map encodeUpdate).flatten ++ junk)).isEmpty
        = false := by
      cases h : encodePartMap m with
      | nil => exact absurd (h ▸ encodePartMap_not_isEmpty m) (by simp)
      | cons a t => simp [h]
    rw [List.append_assoc]
    simp only [load_or_create, hne, Bool.false_eq_true, if_false, hdec, if_true]
    exact replayUpdates_encoded updates m junk hu hjunk

/-- A concrete part map for witnesses: `PartMap.new 100 40`. -/
def exampleMap : PartMap := PartMap.new 100 40

/-- Concrete update records for witnesses (index 0 written twice). -/
def exampleUpdates : List SegmentUpdate := [⟨0, 10⟩, ⟨1, 5⟩, ⟨0, 25⟩]

/-- Witness for C7 at a concrete map, three updates, and a 3-byte truncated
trailing record. -/
theorem partmap_roundtrip_witness :
    (MapBounded exampleMap ∧
      (∀ u ∈ exampleUpdates, u.id < U64_MOD ∧ u.downloaded < U64_MOD) ∧
      decodeUpdate [7, 7, 7] = none) ∧
    (load_or_create (some (encodePartMap exampleMap)) exampleMap.file_size 40 =
        (exampleMap, encodePartMap exampleMap) ∧
      (load_or_create (some (encodePartMap exampleMap ++
          (exampleUpdates.map encodeUpdate).flatten)) exampleMap.file_size 40).1 =
        exampleUpdates.foldl applyUpdate exampleMap ∧
      (∀ j, (exampleUpdates.foldl applyUpdate exampleMap).segments.get? j =
        (exampleMap.segments.get? j).map
          (fun s => { s with downloaded := (lastWritten exampleUpdates j).getD s.downloaded })) ∧
      (load_or_create (some ((encodePartMap exampleMap ++
          (exampleUpdates.map encodeUpdate).flatten) ++ [7, 7, 7]))
          exampleMap.file_size 40).1 = exampleUpdates.foldl applyUpdate exampleMap) :=
  ⟨⟨by decide, by decide, rfl⟩,
   partmap_roundtrip exampleMap 40 exampleUpdates [7, 7, 7] (by decide) (by decide) rfl⟩

lemma find?_setFirstDownloaded (l : List PartSegment) (i d : Nat) (seg : PartSegment)
    (h : l.find? (fun s => s.id == i) = some seg) :
    (setFirstDownloaded l i d).find? (fun s => s.id == i) =
      some { seg with downloaded := d } := by
  induction l with
  | nil => simp [List.find?] at h
  | cons a t ih =>
    by_cases ha : a.id = i
    · rw [List.find?_cons_of_pos _ (by simp [ha])] at h
      have haseg : a = seg := by
        simpa using h
      subst haseg
      simp only [setFirstDownloaded, if_pos ha]
      rw [List.find?_cons_of_pos _ (by simp [ha])]
    · rw [List.find?_cons_of_neg _ (by simp [ha])] at h
      simp only [setFirstDownloaded, if_neg ha]
      rw [List.find?_cons_of_neg _ (by simp [ha])]
      exact ih h

/-- C8: when `record_progress(id, v)` finds its segment, the recorded value
is `v` clamped to the segment length: the in-memory segment's `downloaded`
becomes `min v seg.len ≤ len` (its length is unchanged), and the update
record appended to the file carries the same clamped value. -/
theorem record_progress_clamp (m : PartMap) (file : List Nat) (i v : Nat) (ff : Bool)
    (seg : PartSegment)
    (hfind : m.segments.find? (fun s => s.id == i) = some seg) :
    record_progress m file i v ff =
      some ({ m with segments := setFirstDownloaded m.segments i (min v seg.len) },
            file ++ encodeUpdate ⟨i, min v seg.len⟩) ∧
    (setFirstDownloaded m.segments i (min v seg.len)).find? (fun s => s.id == i) =
      some { seg with downloaded := min v seg.len } ∧
    { seg with downloaded := min v seg.len }.downloaded ≤
      PartSegment.len { seg with downloaded := min v seg.len } := by
  refine ⟨?_, find?_setFirstDownloaded _ _ _ _ hfind, ?_⟩
  · simp [record_progress, hfind]
  · show min v seg.len ≤ seg.len
    exact min_le_right _ _

/-- Witness for C8: `PartMap.new 10 4` has segment `⟨1, 4, 7, 0⟩` (length
4); recording `v = 99` clamps to 4. -/
theorem record_progress_clamp_witness :
    ((PartMap.new 10 4).segments.find? (fun s => s.id == 1) = some ⟨1, 4, 7, 0⟩) ∧
    (record_progress (PartMap.new 10 4) [] 1 99 true =
      some ({ PartMap.new 10 4 with
                segments := setFirstDownloaded (PartMap.new 10 4).segments 1
                  (min 99 (PartSegment.len ⟨1, 4, 7, 0⟩)) },
            [] ++ encodeUpdate ⟨1, min 99 (PartSegment.len ⟨1, 4, 7, 0⟩)⟩) ∧
    (setFirstDownloaded (PartMap.new 10 4).segments 1
        (min 99 (PartSegment.len ⟨1, 4, 7, 0⟩))).find? (fun s => s.id == 1) =
      some { (⟨1, 4, 7, 0⟩ : PartSegment) with
               downloaded := min 99 (PartSegment.len ⟨1, 4, 7, 0⟩) } ∧
    PartSegment.downloaded { (⟨1, 4, 7, 0⟩ : PartSegment) with
        downloaded := min 99 (PartSegment.len ⟨1, 4, 7, 0⟩) } ≤
      PartSegment.len { (⟨1, 4, 7, 0⟩ : PartSegment) with
        downloaded := min 99 (PartSegment.len ⟨1, 4, 7, 0⟩) }) :=
  ⟨by decide, record_progress_clamp (PartMap.new 10 4) [] 1 99 true ⟨1, 4, 7, 0⟩ (by decide)⟩

/-- C10: when an existing part-map file's baseline fails to decode, or
decodes with a stored `file_size` different from the requested one,
`load_or_create` does not fail: it truncates the file, writes a fresh
baseline derived from the partition of `(file_size, chunk_size)`, and every
segment's `downloaded` is reset to `0` (all previously recorded progress is
discarded). -/
theorem load_or_create_resets_on_mismatch (data : List Nat) (fs cs : Nat)
    (h : ∀ m rest, decodePartMap data = some (m, rest) → m.file_size ≠ fs) :
    load_or_create (some data) fs cs =
      (PartMap.new fs cs, encodePartMap (PartMap.new fs cs)) ∧
    ∀ s ∈ (PartMap.new fs cs).segments, s.downloaded = 0 := by
  constructor
  · simp only [load_or_create]
    by_cases he : data.isEmpty = true
    · simp [he]
    · rw [if_neg he]
      cases hdec : decodePartMap data with
      | none => rfl
      | some p =>
        obtain ⟨m', rest⟩ := p
        have hne := h m' rest hdec
        simp [if_neg hne]
  · intro s hs
    by_cases hfs : fs = 0
    · subst hfs
      simp [PartMap.new] at hs
      simp [hs]
    · have hseg : (PartMap.new fs cs).segments = partitionFrom fs (max cs 1) fs 0 0 := by
        simp [PartMap.new, hfs]
      rw [hseg] at hs
      exact partitionFrom_downloaded fs (max cs 1) fs 0 0 s hs

/-- Witness for C10: `[1, 2, 3]` is not a decodable baseline, so loading it
for `file_size = 5`, `chunk_size = 2` rebuilds a fresh part map. -/
theorem load_or_create_resets_witness :
    (∀ m rest, decodePartMap [1, 2, 3] = some (m, rest) → m.file_size ≠ 5) ∧
    (load_or_create (some [1, 2, 3]) 5 2 =
      (PartMap.new 5 2, encodePartMap (PartMap.new 5 2)) ∧
    ∀ s ∈ (PartMap.new 5 2).segments, s.downloaded = 0) :=
  ⟨fun _ _ h => Option.noConfusion h,
   load_or_create_resets_on_mismatch [1, 2, 3] 5 2 (fun _ _ h => Option.noConfusion h)⟩

/-! ## src/scheduler.rs : admission-controlled task queue -/

/-- `SegmentTask` (scheduler.rs lines 6–28). -/
structure SegmentTask where
  id : Nat
  start : Nat
  endPos : Nat
  downloaded : Nat
deriving DecidableEq

/-- `SegmentTask::len`. -/
def SegmentTask.len (t : SegmentTask) : Nat :=
  t.endPos - t.start + 1

/-- `SegmentTask::remaining_range`. -/
def SegmentTask.remaining_range (t : SegmentTask) : Option (Nat × Nat) :=
  if t.endPos - t.start + 1 ≤ t.downloaded then none
  else some (t.start + t.downloaded, t.endPos)

/-- `SegmentStats` (scheduler.rs lines 30–44).  The `f64` duration is
modelled as `ℚ` (the one admission property proved here does not depend on
floating-point rounding). -/
structure SegmentStats where
  id : Nat
  bytes : Nat
  duration : ℚ
deriving DecidableEq

/-- `SegmentStats::throughput`: `bytes` when the duration is zero,
otherwise `bytes / duration`. -/
def SegmentStats.throughput (s : SegmentStats) : ℚ :=
  if s.duration = 0 then (s.bytes : ℚ) else (s.bytes : ℚ) / s.duration

/-- The fields behind the scheduler's mutex (scheduler.rs lines 46–52).
`Instant`s are `ℚ` timestamps. -/
structure SchedulerState where
  pending : List SegmentTask
  active : Nat
  target_parallelism : Nat
  recent_speeds : List ℚ
  last_adjustment : ℚ
deriving DecidableEq

/-- `Scheduler` (scheduler.rs lines 54–61): the state plus the constants
fixed by `Scheduler::new`. -/
structure Scheduler where
  state : SchedulerState
  max_parallelism : Nat
  throughput_window : Nat
  scale_up_threshold : ℚ
  scale_down_threshold : ℚ
  adjustment_interval : ℚ
deriving DecidableEq

/-- `Scheduler::new` (scheduler.rs lines 71–90); `now` models
`Instant::now()`. -/
def Scheduler.new (initial_segments : List SegmentTask)
    (initial_parallelism max_parallelism : Nat) (now : ℚ) : Scheduler :=
  { state :=
      { pending := initial_segments
        active := 0
        target_parallelism := min (max initial_parallelism 1) (max max_parallelism 1)
        recent_speeds := []
        last_adjustment := now }
    max_parallelism := max max_parallelism 1
    throughput_window := 24
    scale_up_threshold := 8000000
    scale_down_threshold := 200000
    adjustment_interval := 2 }

/-- `Scheduler::next_segment` (scheduler.rs lines 92–103). -/
def Scheduler.next_segment (sch : Scheduler) : Option SegmentTask × Scheduler :=
  if sch.state.target_parallelism ≤ sch.state.active then (none, sch)
  else
    match sch.state.pending with
    | [] => (none, sch)
    | seg :: rest =>
      (some seg,
       { sch with state := { sch.state with pending := rest, active := sch.state.active + 1 } })

/-- `Scheduler::on_segment_complete` (scheduler.rs lines 105–135); `now`
models the `Instant::now()` call inside it.  The saturating decrement of
`active`, the bounded speed window, the adjustment-interval early return,
and the two guarded target adjustments are all mirrored. -/
def Scheduler.on_segment_complete (sch : Scheduler) (stats : SegmentStats)
    (now : ℚ) : Scheduler :=
  let active := sch.state.active - 1
  let speeds0 := sch.state.recent_speeds ++ [stats.throughput]
  let speeds := if sch.throughput_window < speeds0.length then speeds0.tail else speeds0
  let st := { sch.state with active := active, recent_speeds := speeds }
  if now - st.last_adjustment < sch.adjustment_interval then { sch with state := st }
  else
    let st := { st with last_adjustment := now }
    if st.recent_speeds.isEmpty then { sch with state := st }
    else
      let avg_speed := st.recent_speeds.sum / (st.recent_speeds.length : ℚ)
      let per_conn := avg_speed / (max st.target_parallelism 1 : ℚ)
      if sch.scale_up_threshold < per_conn ∧ st.target_parallelism < sch.max_parallelism then
        { sch with state := { st with target_parallelism := st.target_parallelism + 1 } }
      else if per_conn < sch.scale_down_threshold ∧ 1 < st.target_parallelism then
        { sch with state := { st with target_parallelism := st.target_parallelism - 1 } }
      else { sch with state := st }

/-- `Scheduler::has_remaining` (scheduler.rs lines 137–140). -/
def Scheduler.has_remaining (sch : Scheduler) : Bool :=
  !sch.state.pending.isEmpty || decide (0 < sch.state.active)

/-- The scheduler states reachable during a download: the initial state of
`Scheduler::new` followed by any interleaving of `next_segment` and
`on_segment_complete` calls. -/
inductive Scheduler.Reachable : Scheduler → Prop
  | init (tasks : List SegmentTask) (ip mp : Nat) (now : ℚ) :
      Scheduler.Reachable (Scheduler.new tasks ip mp now)
  | next {sch : Scheduler} (h : Scheduler.Reachable sch) :
      Scheduler.Reachable sch.next_segment.2
  | complete {sch : Scheduler} (h : Scheduler.Reachable sch)
      (stats : SegmentStats) (now : ℚ) :
      Scheduler.Reachable (sch.on_segment_complete stats now)

lemma Scheduler.next_segment_invariant (sch : Scheduler)
    (h : sch.state.active ≤ sch.state.target_parallelism ∧
      sch.state.target_parallelism ≤ sch.max_parallelism) :
    sch.next_segment.2.state.active ≤ sch.next_segment.2.state.target_parallelism ∧
    sch.next_segment.2.state.target_parallelism ≤ sch.next_segment.2.max_parallelism := by
  unfold Scheduler.next_segment
  by_cases hc : sch.state.target_parallelism ≤ sch.state.active
  · simpa [hc] using h
  · cases hp : sch.state.pending with
    | nil => simpa [hc, hp] using h
    | cons seg rest =>
      simp only [hc, if_false, hp]
      exact ⟨by omega, h.2⟩

lemma Scheduler.on_segment_complete_invariant (sch : Scheduler)
    (stats : SegmentStats) (now : ℚ)
    (h : sch.state.active ≤ sch.state.target_parallelism ∧
      sch.state.target_parallelism ≤ sch.max_parallelism) :
    (sch.on_segment_complete stats now).state.active ≤
      (sch.on_segment_complete stats now).state.target_parallelism ∧
    (sch.on_segment_complete stats now).state.target_parallelism ≤
      (sch.on_segment_complete stats now).max_parallelism := by
  obtain ⟨h1, h2⟩ := h
  unfold Scheduler.on_segment_complete
  dsimp only
  split_ifs <;> exact ⟨by dsimp only; omega, by dsimp only; omega⟩

/-- C4: in every scheduler state reachable by any interleaving of
`next_segment` and `on_segment_complete` calls from `Scheduler::new`,
`active ≤ target_parallelism ≤ max_parallelism` (with `max_parallelism`
the value stored by the constructor), including after the decrement of
`target_parallelism` inside `on_segment_complete`. -/
theorem scheduler_admission_invariant (sch : Scheduler)
    (h : Scheduler.Reachable sch) :
    sch.state.active ≤ sch.state.target_parallelism ∧
    sch.state.target_parallelism ≤ sch.max_parallelism := by
  induction h with
  | init tasks ip mp now =>
    constructor
    · simp [Scheduler.new]
    · dsimp only [Scheduler.new]
      omega
  | next h ih => exact Scheduler.next_segment_invariant _ ih
  | complete h stats now ih => exact Scheduler.on_segment_complete_invariant _ stats now ih

/-- A concrete scheduler state for the C4 witness: `new` with two pending
tasks, one admission, then one completion whose slow sample (10 bytes in
one second, past the 2-second adjustment interval) scales the target
down. -/
def exampleScheduler : Scheduler :=
  ((Scheduler.new [⟨0, 0, 9, 0⟩, ⟨1, 10, 19, 0⟩] 2 4 0).next_segment.2).on_segment_complete
    ⟨0, 10, 1⟩ 5

/-- Witness for C4 at `exampleScheduler`. -/
theorem scheduler_admission_invariant_witness :
    Scheduler.Reachable exampleScheduler ∧
    (exampleScheduler.state.active ≤ exampleScheduler.state.target_parallelism ∧
     exampleScheduler.state.target_parallelism ≤ exampleScheduler.max_parallelism) :=
  ⟨Scheduler.Reachable.complete
     (Scheduler.Reachable.next
       (Scheduler.Reachable.init [⟨0, 0, 9, 0⟩, ⟨1, 10, 19, 0⟩] 2 4 0)) ⟨0, 10, 1⟩ 5,
   scheduler_admission_invariant _
     (Scheduler.Reachable.complete
       (Scheduler.Reachable.next
         (Scheduler.Reachable.init [⟨0, 0, 9, 0⟩, ⟨1, 10, 19, 0⟩] 2 4 0)) ⟨0, 10, 1⟩ 5)⟩

/-! ## src/download/mirror.rs : round-robin mirror pool -/

/-- `MirrorPool` (mirror.rs): a fixed non-empty URL list (the constructor
asserts non-emptiness) and a shared `AtomicUsize` cursor.  The cursor is a
`usize`, so `fetch_add(1)` wraps at `2 ^ 64`. -/
structure MirrorPool (α : Type) where
  urls : List α
  nonempty : urls ≠ []
  cursor : Nat

/-- `urls[idx % urls.len()]` for a raw cursor value `idx`. -/
def MirrorPool.url {α : Type} (p : MirrorPool α) (idx : Nat) : α :=
  p.urls.get ⟨idx % p.urls.length, Nat.mod_lt _ (List.length_pos.mpr p.nonempty)⟩

/-- `MirrorPool::next` (mirror.rs lines 21–25): read the cursor, advance it
by one (wrapping, as `AtomicUsize::fetch_add` does), and return
`urls[old % len]`. -/
def MirrorPool.next {α : Type} (p : MirrorPool α) : α × MirrorPool α :=
  (p.url p.cursor, { p with cursor := (p.cursor + 1) % U64_MOD })

/-- `MirrorPool::primary`. -/
def MirrorPool.primary {α : Type} (p : MirrorPool α) : α :=
  p.urls.head p.nonempty

/-- `n` consecutive `next()` calls: the returned URLs in order, and the
final pool state. -/
def runNext {α : Type} : MirrorPool α → Nat → List α × MirrorPool α
  | p, 0 => ([], p)
  | p, n + 1 =>
    (p.next.1 :: (runNext p.next.2 n).1, (runNext p.next.2 n).2)

/-- C9 counterexample: with `K = 3` URLs and starting cursor
`2 ^ 64 - 1`, the wrap of `fetch_add` makes three consecutive `next()`
calls return `urls[0]`, `urls[0]`, `urls[1]` (because
`2 ^ 64 - 1 ≡ 0` and the cursor then wraps to `0`): `urls[2]` is never
returned, so the three calls are not a permutation of the pool.  The claim
quantifies over every starting cursor value, so it fails here. -/
theorem mirror_rotation_wrap_cx :
    (runNext (⟨[0, 1, 2], List.cons_ne_nil 0 [1, 2], 2 ^ 64 - 1⟩ : MirrorPool Nat) 3).1 =
      [0, 0, 1] ∧
    ¬ (runNext (⟨[0, 1, 2], List.cons_ne_nil 0 [1, 2], 2 ^ 64 - 1⟩ : MirrorPool Nat) 3).1.Perm
      [0, 1, 2] := by
  constructor
  · rfl
  · decide

lemma runNext_fst {α : Type} :
    ∀ (n : Nat) (p : MirrorPool α), p.cursor + n ≤ U64_MOD →
      (runNext p n).1 = (List.range n).map (fun i => p.url (p.cursor + i)) := by
  intro n
  induction n with
  | zero => intro p _; simp [runNext]
  | succ k ih =>
    intro p hle
    have hhead : p.next.1 = p.url (p.cursor + 0) := by
      simp [MirrorPool.next]
    by_cases hk : k = 0
    · subst hk
      simp only [runNext]
      rw [hhead]
      rfl
    · have hcur : (p.cursor + 1) % U64_MOD = p.cursor + 1 := by
        apply Nat.mod_eq_of_lt
        have hkpos : 0 < k := Nat.pos_of_ne_zero hk
        omega
      have hle' : p.next.2.cursor + k ≤ U64_MOD := by
        show (p.cursor + 1) % U64_MOD + k ≤ U64_MOD
        rw [hcur]; omega
      simp only [runNext, ih p.next.2 hle']
      rw [List.range_succ_eq_map, List.map_cons, List.map_map, hhead]
      congr 1
      apply List.map_congr_left
      intro i _
      show p.next.2.url (p.next.2.cursor + i) = p.url (p.cursor + (i + 1))
      have hc2 : p.next.2.cursor = p.cursor + 1 := hcur
      rw [hc2]
      show p.url (p.cursor + 1 + i) = p.url (p.cursor + (i + 1))
      congr 1
      omega

lemma range_map_mod_perm (K c : Nat) (hK : 0 < K) :
    ((List.range K).map (fun i => (c + i) % K)).Perm (List.range K) := by
  have hnodup : ((List.range K).map (fun i => (c + i) % K)).Nodup := by
    refine List.Nodup.map_on ?_ (List.nodup_range K)
    intro i hi j hj hij
    simp only [List.mem_range] at hi hj
    have h2 : c + i ≡ c + j [MOD K] := hij
    have h3 : i ≡ j [MOD K] := Nat.ModEq.add_left_cancel (Nat.ModEq.refl c) h2
    have h4 : i % K = j % K := h3
    rw [Nat.mod_eq_of_lt hi, Nat.mod_eq_of_lt hj] at h4
    exact h4
  have hsub : ((List.range K).map (fun i => (c + i) % K)) ⊆ List.range K := by
    intro x hx
    simp only [List.mem_map, List.mem_range] at hx ⊢
    obtain ⟨i, -, rfl⟩ := hx
    exact Nat.mod_lt _ hK
  refine (List.subperm_of_subset hnodup hsub).perm_of_length_le ?_
  simp

lemma map_url_range {α : Type} (p : MirrorPool α) :
    (List.range p.urls.length).map p.url = p.urls := by
  apply List.ext_get (by simp)
  intro n h1 h2
  have hmap : ((List.range p.urls.length).map p.url).get ⟨n, h1⟩ = p.url n := by
    simp
  rw [hmap]
  unfold MirrorPool.url
  exact congrArg p.urls.get (Fin.ext (Nat.mod_eq_of_lt h2))

lemma url_mod {α : Type} (p : MirrorPool α) (x : Nat) :
    p.url (x % p.urls.length) = p.url x := by
  unfold MirrorPool.url
  exact congrArg p.urls.get (Fin.ext (Nat.mod_mod_of_dvd x dvd_rfl))

/-- C9 amended: for a pool of `K` URLs, any run of `K` consecutive
`next()` calls whose cursor does not wrap past `2 ^ 64` during the run
(`cursor + K ≤ 2 ^ 64`) returns each URL exactly once — the returned list
is a permutation of the pool.  (`next()` is
`urls[fetch_add(1) mod K]`; the wrapping of the `usize` cursor at `2 ^ 64`
is the only exception, exhibited by the counterexample.) -/
theorem mirror_rotation_fair {α : Type} (p : MirrorPool α)
    (h : p.cursor + p.urls.length ≤ U64_MOD) :
    (runNext p p.urls.length).1.Perm p.urls := by
  rw [runNext_fst p.urls.length p h]
  have hK : 0 < p.urls.length := List.length_pos.mpr p.nonempty
  have hperm := range_map_mod_perm p.urls.length p.cursor hK
  have hstep : (List.range p.urls.length).map (fun i => p.url (p.cursor + i)) =
      ((List.range p.urls.length).map (fun i => (p.cursor + i) % p.urls.length)).map
        p.url := by
    rw [List.map_map]
    apply List.map_congr_left
    intro i _
    exact (url_mod p (p.cursor + i)).symm
  have hm := hperm.map p.url
  rw [map_url_range p] at hm
  rw [hstep]
  exact hm

/-- A concrete pool for the C9 witness. -/
def witnessPool : MirrorPool Nat := ⟨[10, 20, 30], List.cons_ne_nil 10 [20, 30], 5⟩

/-- Witness for C9 amended: three calls from cursor 5 return a permutation
of the three URLs. -/
theorem mirror_rotation_fair_witness :
    witnessPool.cursor + witnessPool.urls.length ≤ U64_MOD ∧
    (runNext witnessPool witnessPool.urls.length).1.Perm witnessPool.urls :=
  ⟨by decide, mirror_rotation_fair witnessPool (by decide)⟩

/-! ## src/download/manager.rs : segment worker and retry loop

The worker (`download_segment_once`, manager.rs lines 590–672) is embedded
as a pure function over its observable effects: the part map and its
append log, the shared progress counter, and the positional file writes.
The network is abstracted by an `AttemptEnv` describing what one attempt's
request observes: whether `send()` succeeds, the HTTP status, the sizes of
the delivered body chunks, whether the body stream then ends cleanly, and
which `write_all_at` calls fail.  The bandwidth limiter only delays and is
elided. -/

/-- `PartMapHandle::segment` (partmap.rs lines 194–197): look up a segment
by its `id` field. -/
def PartMap.segment (m : PartMap) (i : Nat) : Option PartSegment :=
  m.segments.find? (fun seg => seg.id == i)

/-- What one attempt's HTTP exchange delivers. -/
structure AttemptEnv where
  sendOk : Bool
  status : Nat
  chunks : List Nat
  bodyComplete : Bool
  failingWrites : List Nat
  duration : ℚ

/-- The worker-visible shared state: the part map and its on-disk log, the
shared progress counter, and the `(position, length)` trace of successful
`write_all_at` calls. -/
structure WorkerState where
  pm : PartMap
  pmFile : List Nat
  progress : Nat
  fileWrites : List (Nat × Nat)
deriving DecidableEq

/-- The error cases of `download_segment_once`. -/
inductive SegError where
  | segmentMissing (id : Nat)
  | network
  | unexpectedStatus (status : Nat) (id : Nat)
  | body
  | write
  | recordProgress (id : Nat)
deriving DecidableEq

/-- `StatusCode::is_success`. -/
abbrev statusIsSuccess (s : Nat) : Prop := 200 ≤ s ∧ s < 300

/-- The local variables of the streaming loop (manager.rs lines 630–655). -/
structure LoopState where
  ws : WorkerState
  position : Nat
  downloaded : Nat
  total : Nat
  bufLen : Nat
  bufPos : Nat
  writeIdx : Nat
deriving DecidableEq

/-- One `write_all_at(&file, &write_buffer, buffer_position)` call: it may
fail (a local I/O error), otherwise the write is recorded and the buffer
cleared. -/
def flushWrite (failing : List Nat) (st : LoopState) : Except SegError LoopState :=
  if st.writeIdx ∈ failing then Except.error SegError.write
  else Except.ok
    { st with
        ws := { st.ws with fileWrites := st.ws.fileWrites ++ [(st.bufPos, st.bufLen)] },
        bufPos := st.bufPos + st.bufLen, bufLen := 0, writeIdx := st.writeIdx + 1 }

/-- The `while let Some(chunk) = stream.next()` loop body (manager.rs lines
636–655): extend the buffer, flush it when it reaches
`WRITE_BUFFER_SIZE` (failing writes abort before the chunk is counted),
then add the chunk to `position`, `downloaded`, `total` and the shared
progress counter. -/
def runChunks (failing : List Nat) : List Nat → LoopState → LoopState × Option SegError
  | [], st => (st, none)
  | c :: rest, st =>
    let st1 := { st with bufLen := st.bufLen + c }
    match (if WRITE_BUFFER_SIZE ≤ st1.bufLen then flushWrite failing st1
           else Except.ok st1) with
    | Except.error e => (st1, some e)
    | Except.ok st2 =>
      runChunks failing rest
        { st2 with
            position := st2.position + c, downloaded := st2.downloaded + c,
            total := st2.total + c,
            ws := { st2.ws with progress := st2.ws.progress + c } }

/-- The tail of one attempt (manager.rs lines 657–671): flush the residual
buffer (`if !write_buffer.is_empty()`), then `record_progress` with the
final `downloaded` (the `completed` flag is the ignored `force_flush`
argument), returning the stats of the attempt. -/
def finishAttempt (seg : SegmentTask) (env : AttemptEnv) (st : LoopState) :
    WorkerState × Except SegError SegmentStats :=
  match (if st.bufLen ≠ 0 then flushWrite env.failingWrites st else Except.ok st) with
  | Except.error e => (st.ws, Except.error e)
  | Except.ok st2 =>
    match record_progress st2.ws.pm st2.ws.pmFile seg.id st2.downloaded
        (decide (seg.len ≤ st2.downloaded)) with
    | none => (st2.ws, Except.error (SegError.recordProgress seg.id))
    | some (pm', file') =>
      ({ st2.ws with pm := pm', pmFile := file' },
       Except.ok ⟨seg.id, st2.total, env.duration⟩)

/-- The body-streaming phase of one attempt (manager.rs lines 630–665):
run the chunk loop from the attempt's `Range` start, fail with a body
error if the stream does not complete, otherwise finish the attempt. -/
def streamBody (ws : WorkerState) (seg : SegmentTask) (env : AttemptEnv)
    (segState : PartSegment) : WorkerState × Except SegError SegmentStats :=
  match runChunks env.failingWrites env.chunks
      ⟨ws, segState.start + segState.downloaded, segState.downloaded, 0, 0,
       segState.start + segState.downloaded, 0⟩ with
  | (st, some e) => (st.ws, Except.error e)
  | (st, none) =>
    if ¬ env.bodyComplete then (st.ws, Except.error SegError.body)
    else finishAttempt seg env st

/-- `download_segment_once` (manager.rs lines 590–672): re-read the segment
from the part map, return zero stats if it is already complete, build the
`Range` start as `start + downloaded`, check the response status (206, or
any 2xx when the range starts at 0), then stream the body.  The returned
pair is the shared state after the attempt and the attempt's outcome. -/
def download_segment_once (ws : WorkerState) (seg : SegmentTask) (env : AttemptEnv) :
    WorkerState × Except SegError SegmentStats :=
  match ws.pm.segment seg.id with
  | none => (ws, Except.error (SegError.segmentMissing seg.id))
  | some segState =>
    if segState.remaining = 0 then (ws, Except.ok ⟨seg.id, 0, 0⟩)
    else if ¬ env.sendOk then (ws, Except.error SegError.network)
    else if ¬ (env.status = 206 ∨
        (segState.start + segState.downloaded = 0 ∧ statusIsSuccess env.status)) then
      (ws, Except.error (SegError.unexpectedStatus env.status seg.id))
    else streamBody ws seg env segState

/-- The `loop` of `download_segment_with_retry` (manager.rs lines 563–588):
`remaining` is the number of retries still allowed (`attempt < MAX_RETRIES`
in the source), `attempt` is 1-indexed; on a retriable failure the worker
sleeps `2 ^ min(attempt, 4)` seconds (collected in the returned list) and
tries again with the next attempt's environment. -/
def retryGo (seg : SegmentTask) (envs : Nat → AttemptEnv) :
    Nat → Nat → WorkerState → WorkerState × Except SegError SegmentStats × List Nat
  | 0, attempt, ws =>
    match download_segment_once ws seg (envs attempt) with
    | (ws', Except.ok stats) => (ws', Except.ok stats, [])
    | (ws', Except.error e) => (ws', Except.error e, [])
  | r + 1, attempt, ws =>
    match download_segment_once ws seg (envs attempt) with
    | (ws', Except.ok stats) => (ws', Except.ok stats, [])
    | (ws', Except.error _) =>
      let res := retryGo seg envs r (attempt + 1) ws'
      (res.1, res.2.1, 2 ^ min attempt 4 :: res.2.2)

/-- `download_segment_with_retry` (manager.rs lines 546–588): zero stats
without any attempt when the task snapshot is already complete, otherwise
up to `MAX_RETRIES` attempts. -/
def download_segment_with_retry (ws : WorkerState) (seg : SegmentTask)
    (envs : Nat → AttemptEnv) :
    WorkerState × Except SegError SegmentStats × List Nat :=
  if seg.remaining_range = none then (ws, Except.ok ⟨seg.id, 0, 0⟩, [])
  else retryGo seg envs (MAX_RETRIES - 1) 1 ws

/-- C1 (the code contradicts it): in `download_segments` the part-map file
is removed *before* the destination file's fsync.  In the run where the
part-map file exists, `finalize()` succeeds and `sync_all()` fails, the
trace is `[partMapRemoved, fsyncFailed]`, the part-map file is gone and the
run fails — so on an fsync failure the part-map file is *not* left on
disk.  Even in the fully successful run the removal event precedes the
fsync event. -/
theorem finalize_removes_partmap_before_fsync :
    finalizeTail true false true =
      ([FinalEvent.partMapRemoved, FinalEvent.fsyncFailed], false, false) ∧
    finalizeTail true false false =
      ([FinalEvent.partMapRemoved, FinalEvent.fsyncOk], false, true) := by
  decide

/-! ### C2/C3 lemmas: what a failed attempt does and does not change -/

lemma flushWrite_pm {failing : List Nat} {st st' : LoopState}
    (h : flushWrite failing st = Except.ok st') :
    st'.ws.pm = st.ws.pm ∧ st'.ws.pmFile = st.ws.pmFile := by
  unfold flushWrite at h
  split at h
  · exact absurd h (by simp)
  · simp only [Except.ok.injEq] at h
    subst h
    exact ⟨rfl, rfl⟩

lemma runChunks_pm (failing : List Nat) :
    ∀ (chunks : List Nat) (st : LoopState),
      ((runChunks failing chunks st).1).ws.pm = st.ws.pm ∧
      ((runChunks failing chunks st).1).ws.pmFile = st.ws.pmFile := by
  intro chunks
  induction chunks with
  | nil => intro st; exact ⟨rfl, rfl⟩
  | cons c rest ih =>
    intro st
    simp only [runChunks]
    split
    · exact ⟨rfl, rfl⟩
    · rename_i st2 heq
      have h2 : st2.ws.pm = st.ws.pm ∧ st2.ws.pmFile = st.ws.pmFile := by
        split at heq
        · have := flushWrite_pm heq
          exact this
        · simp only [Except.ok.injEq] at heq
          subst heq
          exact ⟨rfl, rfl⟩
      have h3 := ih { st2 with
        position := st2.position + c, downloaded := st2.downloaded + c,
        total := st2.total + c,
        ws := { st2.ws with progress := st2.ws.progress + c } }
      exact ⟨h3.1.trans h2.1, h3.2.trans h2.2⟩

lemma finishAttempt_error_pm (seg : SegmentTask) (env : AttemptEnv)
    (st : LoopState) {ws' : WorkerState} {e : SegError}
    (h : finishAttempt seg env st = (ws', Except.error e)) :
    ws'.pm = st.ws.pm ∧ ws'.pmFile = st.ws.pmFile := by
  unfold finishAttempt at h
  cases hf : (if st.bufLen ≠ 0 then flushWrite env.failingWrites st else Except.ok st) with
  | error e2 =>
    simp only [hf, Prod.mk.injEq] at h
    rw [← h.1]
    exact ⟨rfl, rfl⟩
  | ok st2 =>
    have hpm2 : st2.ws.pm = st.ws.pm ∧ st2.ws.pmFile = st.ws.pmFile := by
      split at hf
      · exact flushWrite_pm hf
      · simp only [Except.ok.injEq] at hf
        subst hf
        exact ⟨rfl, rfl⟩
    simp only [hf] at h
    cases hr : record_progress st2.ws.pm st2.ws.pmFile seg.id st2.downloaded
        (decide (seg.len ≤ st2.downloaded)) with
    | none =>
      simp only [hr, Prod.mk.injEq] at h
      rw [← h.1]
      exact hpm2
    | some p =>
      obtain ⟨pm2, file2⟩ := p
      simp only [hr, Prod.mk.injEq] at h
      exact absurd h.2 (by simp)

lemma streamBody_error_pm (ws : WorkerState) (seg : SegmentTask) (env : AttemptEnv)
    (segState : PartSegment) {ws' : WorkerState} {e : SegError}
    (h : streamBody ws seg env segState = (ws', Except.error e)) :
    ws'.pm = ws.pm ∧ ws'.pmFile = ws.pmFile := by
  unfold streamBody at h
  have hpm := runChunks_pm env.failingWrites env.chunks
    ⟨ws, segState.start + segState.downloaded, segState.downloaded, 0, 0,
     segState.start + segState.downloaded, 0⟩
  cases hrun : runChunks env.failingWrites env.chunks
      ⟨ws, segState.start + segState.downloaded, segState.downloaded, 0, 0,
       segState.start + segState.downloaded, 0⟩ with
  | mk st oerr =>
    rw [hrun] at hpm h
    cases oerr with
    | some e0 =>
      simp only [Prod.mk.injEq] at h
      rw [← h.1]
      exact hpm
    | none =>
      simp only at h
      by_cases hb : ¬ env.bodyComplete
      · rw [if_pos hb] at h
        simp only [Prod.mk.injEq] at h
        rw [← h.1]
        exact hpm
      · rw [if_neg hb] at h
        have := finishAttempt_error_pm seg env st h
        exact ⟨this.1.trans hpm.1, this.2.trans hpm.2⟩

lemma download_segment_once_error_pm (ws : WorkerState) (seg : SegmentTask)
    (env : AttemptEnv) {ws' : WorkerState} {e : SegError}
    (h : download_segment_once ws seg env = (ws', Except.error e)) :
    ws'.pm = ws.pm ∧ ws'.pmFile = ws.pmFile := by
  unfold download_segment_once at h
  cases hseg : ws.pm.segment seg.id with
  | none =>
    simp only [hseg, Prod.mk.injEq] at h
    rw [← h.1]
    exact ⟨rfl, rfl⟩
  | some segState =>
    simp only [hseg] at h
    by_cases hrem : segState.remaining = 0
    · rw [if_pos hrem] at h
      simp only [Prod.mk.injEq] at h
      exact absurd h.2 (by simp)
    · rw [if_neg hrem] at h
      by_cases hsend : ¬ env.sendOk
      · rw [if_pos hsend] at h
        simp only [Prod.mk.injEq] at h
        rw [← h.1]
        exact ⟨rfl, rfl⟩
      · rw [if_neg hsend] at h
        by_cases hstat : ¬ (env.status = 206 ∨
            (segState.start + segState.downloaded = 0 ∧ statusIsSuccess env.status))
        · rw [if_pos hstat] at h
          simp only [Prod.mk.injEq] at h
          rw [← h.1]
          exact ⟨rfl, rfl⟩
        · rw [if_neg hstat] at h
          exact streamBody_error_pm ws seg env segState h

/-- A concrete worker state: a fresh part map for a 10-byte file in one
segment `⟨0, 0, 9, 0⟩`, empty log, zero progress, no writes yet. -/
def cxWorker : WorkerState := ⟨PartMap.new 10 10, [], 0, []⟩

/-- The scheduler task for that segment. -/
def cxTask : SegmentTask := ⟨0, 0, 9, 0⟩

/-- An attempt that receives one 5-byte chunk and then fails with a body
error. -/
def envPartialBody : AttemptEnv :=
  { sendOk := true, status := 206, chunks := [5], bodyComplete := false,
    failingWrites := [], duration := 0 }

/-- C2 counterexample: the attempt receives `b = 5 > 0` body bytes (the
shared progress counter ends at 5) and then fails; but the part map's
`downloaded` for the segment is *not* updated to include them — the next
attempt's `Range` start, `segment.start + downloaded` re-read from the part
map, is `0`, not `0 + 5`. -/
theorem failed_attempt_bytes_cx :
    (download_segment_once cxWorker cxTask envPartialBody).2 =
      Except.error SegError.body ∧
    (download_segment_once cxWorker cxTask envPartialBody).1.progress = 5 ∧
    ((download_segment_once cxWorker cxTask envPartialBody).1.pm.segment 0).map
      (fun s => s.start + s.downloaded) = some 0 ∧
    ¬ ((download_segment_once cxWorker cxTask envPartialBody).1.pm.segment 0).map
      (fun s => s.start + s.downloaded) = some (0 + 5) :=
  ⟨rfl, rfl, rfl, by decide⟩

/-- The outcome of one `record_progress` call. -/
inductive RecordResult where
  | ok
  | notFound
  | appendFailed
deriving DecidableEq

/-- `PartMapHandle::record_progress` (partmap.rs lines 166–192) with the
outcome of the append (`state.file.write_all`, line 187) made explicit.
The in-memory clamp-and-update at line 180 happens *before* the append, so
when the append fails the call returns an error with the in-memory part map
already updated and the file unchanged; when the segment is not found it
returns an error with nothing changed.  `appendOk = true` is the
successful-append path and agrees with `record_progress` (which models only
that path); `appendOk = false` injects the append I/O error. -/
def record_progress_io (m : PartMap) (fileData : List Nat) (i downloaded : Nat)
    (_force_flush : Bool) (appendOk : Bool) :
    (PartMap × List Nat) × RecordResult :=
  match m.segments.find? (fun seg => seg.id == i) with
  | none => ((m, fileData), RecordResult.notFound)
  | some segment =>
    let m' := { m with
      segments := setFirstDownloaded m.segments i (min downloaded segment.len) }
    if appendOk then
      ((m', fileData ++ encodeUpdate ⟨i, min downloaded segment.len⟩), RecordResult.ok)
    else ((m', fileData), RecordResult.appendFailed)

lemma record_progress_io_ok_agrees (m : PartMap) (file : List Nat) (i v : Nat)
    (ff : Bool) :
    (∀ p, record_progress m file i v ff = some p →
      record_progress_io m file i v ff true = (p, RecordResult.ok)) ∧
    (record_progress m file i v ff = none →
      record_progress_io m file i v ff true = ((m, file), RecordResult.notFound)) := by
  cases hfind : m.segments.find? (fun seg => seg.id == i) with
  | none =>
    constructor
    · intro p hp
      simp [record_progress, hfind] at hp
    · intro _
      simp [record_progress_io, hfind]
  | some seg0 =>
    constructor
    · intro p hp
      simp only [record_progress, hfind, Option.some.injEq] at hp
      subst hp
      simp [record_progress_io, hfind]
    · intro hnone
      simp [record_progress, hfind] at hnone

/-- C2 amended: a failed attempt's partial bytes are preserved only in one
failure mode — when `record_progress`'s append to the part-map file fails,
which happens *after* the in-memory update, so the in-memory part map (but
not the log) already includes the bytes and the next attempt's `Range`
start includes them.  In every failure mode that precedes
`record_progress` — network error, unacceptable status, a body error while
receiving the `b > 0` bytes (the counterexample's mode), a positional-write
error, or a missing segment — no update is performed: the part map and its
log are unchanged and the next attempt's `Range` start
(`segment.start + downloaded`, re-read from the part map) excludes the
failed attempt's bytes, which were written to the destination file at their
correct offsets and are simply fetched again. -/
theorem failed_attempt_partial_bytes (ws : WorkerState) (seg : SegmentTask)
    (env : AttemptEnv) (ws' : WorkerState) (e : SegError) (m : PartMap)
    (file : List Nat) (i v : Nat) (ff : Bool) (seg0 : PartSegment) :
    (download_segment_once ws seg env = (ws', Except.error e) →
      (∀ j, e ≠ SegError.recordProgress j) →
      ws'.pm = ws.pm ∧ ws'.pmFile = ws.pmFile ∧
      (ws'.pm.segment seg.id).map (fun s => s.start + s.downloaded) =
        (ws.pm.segment seg.id).map (fun s => s.start + s.downloaded)) ∧
    (m.segments.find? (fun s => s.id == i) = some seg0 →
      record_progress_io m file i v ff false =
        (({ m with segments := setFirstDownloaded m.segments i (min v seg0.len) },
          file),
         RecordResult.appendFailed) ∧
      (PartMap.segment
          { m with segments := setFirstDownloaded m.segments i (min v seg0.len) }
          i).map (fun s => s.start + s.downloaded) =
        some (seg0.start + min v seg0.len)) := by
  constructor
  · intro h _
    obtain ⟨h1, h2⟩ := download_segment_once_error_pm ws seg env h
    exact ⟨h1, h2, by rw [h1]⟩
  · intro hfind
    constructor
    · simp [record_progress_io, hfind]
    · show ((setFirstDownloaded m.segments i (min v seg0.len)).find?
          (fun s => s.id == i)).map (fun s => s.start + s.downloaded) = _
      rw [find?_setFirstDownloaded m.segments i (min v seg0.len) seg0 hfind]
      rfl

/-- Witness for C2 amended: the mid-body failure from the counterexample
(part map unchanged, `Range` start still 0), and the injected append
failure at the same map (in-memory `downloaded` becomes 5, file unchanged,
`Range` start 0 + 5). -/
theorem failed_attempt_partial_bytes_witness :
    (download_segment_once cxWorker cxTask envPartialBody =
      (⟨PartMap.new 10 10, [], 5, []⟩, Except.error SegError.body) ∧
     (∀ j, SegError.body ≠ SegError.recordProgress j) ∧
     (PartMap.new 10 10).segments.find? (fun s => s.id == 0) = some ⟨0, 0, 9, 0⟩) ∧
    ((⟨PartMap.new 10 10, [], 5, []⟩ : WorkerState).pm = cxWorker.pm ∧
     (⟨PartMap.new 10 10, [], 5, []⟩ : WorkerState).pmFile = cxWorker.pmFile ∧
     ((⟨PartMap.new 10 10, [], 5, []⟩ : WorkerState).pm.segment cxTask.id).map
        (fun s => s.start + s.downloaded) =
      (cxWorker.pm.segment cxTask.id).map (fun s => s.start + s.downloaded)) ∧
    (record_progress_io (PartMap.new 10 10) [] 0 5 false false =
        (({ PartMap.new 10 10 with
              segments := setFirstDownloaded (PartMap.new 10 10).segments 0
                (min 5 (PartSegment.len ⟨0, 0, 9, 0⟩)) }, []),
         RecordResult.appendFailed) ∧
     (PartMap.segment
          { PartMap.new 10 10 with
              segments := setFirstDownloaded (PartMap.new 10 10).segments 0
                (min 5 (PartSegment.len ⟨0, 0, 9, 0⟩)) } 0).map
        (fun s => s.start + s.downloaded) =
      some (PartSegment.start ⟨0, 0, 9, 0⟩ + min 5 (PartSegment.len ⟨0, 0, 9, 0⟩))) :=
  ⟨⟨rfl, fun _ h => SegError.noConfusion h, by decide⟩,
   (failed_attempt_partial_bytes cxWorker cxTask envPartialBody
       ⟨PartMap.new 10 10, [], 5, []⟩ SegError.body (PartMap.new 10 10) [] 0 5 false
       ⟨0, 0, 9, 0⟩).1 rfl (fun _ h => SegError.noConfusion h),
   (failed_attempt_partial_bytes cxWorker cxTask envPartialBody
       ⟨PartMap.new 10 10, [], 5, []⟩ SegError.body (PartMap.new 10 10) [] 0 5 false
       ⟨0, 0, 9, 0⟩).2 (by decide)⟩

/-- Attempt environments for C3: attempt 1 hits a positional-write failure
(one buffer-sized chunk whose flush fails), every later attempt succeeds
with a 10-byte body. -/
def envsWriteFail : Nat → AttemptEnv := fun k =>
  if k = 1 then
    { sendOk := true, status := 206, chunks := [WRITE_BUFFER_SIZE],
      bodyComplete := true, failingWrites := [0], duration := 0 }
  else
    { sendOk := true, status := 206, chunks := [10], bodyComplete := true,
      failingWrites := [], duration := 0 }

/-- C3 counterexample: attempt 1 fails with the positional-write error, yet
the worker does not surface it — it sleeps 2 seconds (the sleep list is
`[2]`) and performs a second attempt, which succeeds with 10 bytes.  A
write error is retried exactly like a network error. -/
theorem local_write_error_retried_cx :
    (download_segment_once cxWorker cxTask (envsWriteFail 1)).2 =
      Except.error SegError.write ∧
    (download_segment_with_retry cxWorker cxTask envsWriteFail).2.1 =
      Except.ok ⟨0, 10, 0⟩ ∧
    (download_segment_with_retry cxWorker cxTask envsWriteFail).2.2 = [2] :=
  ⟨rfl, rfl, rfl⟩

lemma retryGo_all_fail (seg : SegmentTask) (envs : Nat → AttemptEnv) :
    ∀ (r attempt : Nat) (ws : WorkerState),
      (∀ k ws2, attempt ≤ k → k ≤ attempt + r → ws2.pm = ws.pm →
        ∃ e, (download_segment_once ws2 seg (envs k)).2 = Except.error e) →
      (∃ e, (retryGo seg envs r attempt ws).2.1 = Except.error e) ∧
      (retryGo seg envs r attempt ws).2.2 =
        (List.range r).map (fun j => 2 ^ min (attempt + j) 4) := by
  intro r
  induction r with
  | zero =>
    intro attempt ws hall
    obtain ⟨e, he⟩ := hall attempt ws (le_refl _) (by omega) rfl
    cases honce : download_segment_once ws seg (envs attempt) with
    | mk ws1 out =>
      rw [honce] at he
      simp only at he
      subst he
      simp only [retryGo, honce]
      exact ⟨⟨e, rfl⟩, rfl⟩
  | succ r ih =>
    intro attempt ws hall
    obtain ⟨e, he⟩ := hall attempt ws (le_refl _) (by omega) rfl
    cases honce : download_segment_once ws seg (envs attempt) with
    | mk ws1 out =>
      rw [honce] at he
      simp only at he
      subst he
      have hpm := download_segment_once_error_pm ws seg (envs attempt) honce
      have hall' : ∀ k ws2, attempt + 1 ≤ k → k ≤ attempt + 1 + r → ws2.pm = ws1.pm →
          ∃ e2, (download_segment_once ws2 seg (envs k)).2 = Except.error e2 := by
        intro k ws2 hk1 hk2 hpm2
        exact hall k ws2 (by omega) (by omega) (hpm2.trans hpm.1)
      obtain ⟨hih1, hih2⟩ := ih (attempt + 1) ws1 hall'
      simp only [retryGo, honce]
      refine ⟨hih1, ?_⟩
      rw [hih2, List.range_succ_eq_map, List.map_cons, List.map_map]
      congr 1
      apply List.map_congr_left
      intro j _
      show 2 ^ min (attempt + 1 + j) 4 = 2 ^ min (attempt + (j + 1)) 4
      congr 2
      omega

/-- C3 amended: the retry loop of `download_segment_with_retry` does not
classify errors at all — positional-write and part-map errors are retried
exactly like network, status and body errors.  (i) Whatever error the
first attempt produces, the worker sleeps 2 seconds and tries again.
(ii) When every attempt fails (for any state with the same part map),
the worker performs `MAX_RETRIES = 5` attempts, sleeping
`2, 4, 8, 16` seconds between them, and only then surfaces an error. -/
theorem retry_uniform_policy (ws : WorkerState) (seg : SegmentTask)
    (envs : Nat → AttemptEnv) :
    (∀ ws1 e1, seg.downloaded < seg.len →
      download_segment_once ws seg (envs 1) = (ws1, Except.error e1) →
      ∃ tail, (download_segment_with_retry ws seg envs).2.2 = 2 :: tail) ∧
    (seg.downloaded < seg.len →
      (∀ k ws2, 1 ≤ k → k ≤ MAX_RETRIES → ws2.pm = ws.pm →
        ∃ e2, (download_segment_once ws2 seg (envs k)).2 = Except.error e2) →
      ∃ e3, (download_segment_with_retry ws seg envs).2.1 = Except.error e3 ∧
        (download_segment_with_retry ws seg envs).2.2 = [2, 4, 8, 16]) := by
  have hrr : seg.downloaded < seg.len → ¬ seg.remaining_range = none := by
    intro hlt hnone
    unfold SegmentTask.remaining_range at hnone
    unfold SegmentTask.len at hlt
    split at hnone
    · omega
    · simp at hnone
  constructor
  · intro ws1 e1 hlt honce
    unfold download_segment_with_retry
    rw [if_neg (hrr hlt)]
    show ∃ tail, (retryGo seg envs (MAX_RETRIES - 1) 1 ws).2.2 = 2 :: tail
    simp only [MAX_RETRIES]
    show ∃ tail, (retryGo seg envs (3 + 1) 1 ws).2.2 = 2 :: tail
    simp only [retryGo, honce]
    exact ⟨_, rfl⟩
  · intro hlt hall
    unfold download_segment_with_retry
    rw [if_neg (hrr hlt)]
    have := retryGo_all_fail seg envs (MAX_RETRIES - 1) 1 ws
      (fun k ws2 hk1 hk2 hpm => hall k ws2 hk1 (by
        simp only [MAX_RETRIES] at hk2 ⊢
        omega) hpm)
    obtain ⟨⟨e3, he3⟩, hsleep⟩ := this
    exact ⟨e3, he3, by rw [hsleep]; rfl⟩

/-- Attempt environments for the all-fail half of the C3 witness: the
connection always fails. -/
def envsAllFail : Nat → AttemptEnv := fun _ =>
  { sendOk := false, status := 0, chunks := [], bodyComplete := true,
    failingWrites := [], duration := 0 }

/-- Witness for C3 amended: a first-attempt write error leads to a retry
(sleep list starts with 2), and with a permanently failing connection the
worker performs five attempts, sleeps `[2, 4, 8, 16]`, then surfaces the
error. -/
theorem retry_uniform_policy_witness :
    (cxTask.downloaded < cxTask.len ∧
      download_segment_once cxWorker cxTask (envsWriteFail 1) =
        (cxWorker, Except.error SegError.write)) ∧
    (∃ tail, (download_segment_with_retry cxWorker cxTask envsWriteFail).2.2 =
      2 :: tail) ∧
    (∃ e3, (download_segment_with_retry cxWorker cxTask envsAllFail).2.1 =
        Except.error e3 ∧
      (download_segment_with_retry cxWorker cxTask envsAllFail).2.2 =
        [2, 4, 8, 16]) :=
  ⟨⟨by decide, rfl⟩,
   (retry_uniform_policy cxWorker cxTask envsWriteFail).1 cxWorker SegError.write
     (by decide) rfl,
   (retry_uniform_policy cxWorker cxTask envsAllFail).2 (by decide)
     (fun k ws2 _ _ hpm => ⟨SegError.network, by
       unfold download_segment_once
       rw [hpm]
       rfl⟩)⟩

end KDownload
